import Mathlib

/-!
Shallow embedding of `generate_cookiecutter.py`: the exclusion classifier
(`should_exclude`), the path rewriter (`get_template_path`), the content
transformer (`process_text_content`) and the binary-fallback file copy
(`copy_and_process_file`).

Modelling conventions:
* a Python `str` is a `List Char`; string constants are written as Lean
  string literals converted with `.data` (literal braces are written with
  `\x7b` / `\x7d` escapes, apostrophes with `\x27`);
* a filesystem path is its tuple of segments (`Path.parts`) together with
  the directory/file bit that `Path.is_dir` / `Path.is_file` report during
  the traversal (every visited entry exists and is one of the two);
* `re.sub` with a pattern that is a fixed literal (all regex
  metacharacters escaped), and `str.replace`, are embedded as left-to-right
  non-overlapping literal replacement (`pyReplace`);
* `re.sub` with the non-literal patterns of the script (character classes
  `\w`, `\d`, `[^"]` under greedy `+`, word boundaries `\b`, and `^` under
  `re.MULTILINE`) is embedded by a small matcher (`reSub`) specialised to
  exactly those constructs; the classes `\w` and `\d` are modelled at their
  ASCII core (`isWordChar`, `Char.isDigit`); in every pattern of the script
  each `+`-class is followed by a character outside the class, so the
  greedy no-backtracking matcher agrees with the Python semantics there;
* file bytes are `List UInt8`; UTF-8 text decoding is a
  strict UTF-8 decoder `decodeUtf8` returning `none` exactly on a decode
  error (the `UnicodeDecodeError` of Python), with universal-newline
  translation `univNewlines` applied on success as Python text mode does;
  writing text on Linux translates nothing, so writing is UTF-8 encoding.
-/

/-- `fnmatch`-style glob matching used by `Path.match` for the
single-segment wildcard patterns of the script (`*` and `?`; the patterns of the script contain no character classes). -/
def globMatch : List Char → List Char → Bool
  | [], s => s.isEmpty
  | '*' :: ps, s => s.tails.any fun t => globMatch ps t
  | '?' :: ps, s => match s with | [] => false | _ :: cs => globMatch ps cs
  | p :: ps, s => match s with | [] => false | c :: cs => (p == c) && globMatch ps cs

/-- A filesystem path as seen by the traversal: its segments
(`Path.parts`) and whether the entry is a directory (`Path.is_dir`;
`Path.is_file` is its negation for the entries `rglob` yields). -/
structure PathInfo where
  parts : List String
  isDir : Bool

/-- `Path.name`: the final path segment (empty for an empty path). -/
def pathName (p : PathInfo) : String := p.parts.getLastD ""

/-- `str(path)` for a relative POSIX path: segments joined with `/`. -/
def pathStr (p : PathInfo) : String := String.intercalate "/" p.parts

/-- Membership test `seg in parts` (Python `in` on the parts tuple). -/
def hasSeg (a : String) : List String → Bool
  | [] => false
  | x :: xs => x == a || hasSeg a xs

/-- Python `list.index` for a present element: index of first occurrence
(arbitrary past-the-end value when absent, matching the guarded use in the
script where membership is checked first). -/
def pyIndex (a : String) : List String → Nat
  | [] => 0
  | x :: xs => if x == a then 0 else pyIndex a xs + 1

/-- The Python substring test `q in s` on strings, as character lists. -/
def containsSub (q : List Char) : List Char → Bool
  | [] => q.isEmpty
  | c :: cs => q.isPrefixOf (c :: cs) || containsSub q cs

/-- `EXCLUDE_PATTERNS` from the script (a Python `set`; order
irrelevant). -/
def EXCLUDE_PATTERNS : List String :=
  [".git", ".gitignore", "__pycache__", ".pytest_cache", ".mypy_cache",
   ".venv", "venv", "poetry.lock", "mypy.ini", "cookiecutter-output",
   "generate_cookiecutter.py", "COOKIECUTTER_README.md", ".ruff_cache",
   ".vscode", ".idea", "*.pyc", "*.pyo", "*.pyd", ".Python",
   "pip-log.txt", "pip-delete-this-directory.txt", ".coverage",
   "htmlcov", ".tox", ".DS_Store", ".approval_tests_temp",
   ".approval_tests_cache", "approved_files", "received_files"]

/-- `should_exclude` from the script: the `.git`-directory rule, the
inside-`.git` rule, the scratchpads keep-only-`.gitignore` rule, then the
pattern loop (substring-or-exact-name, and glob for `*` patterns; the
`.git` pattern is skipped in the loop). -/
def should_exclude (p : PathInfo) : Bool :=
  if pathName p == ".git" && p.isDir then true
  else if hasSeg ".git" p.parts
      && !((p.parts.drop (pyIndex ".git" p.parts + 1)).isEmpty) then true
  else if hasSeg "scratchpads" p.parts && !p.isDir then
    if pathName p == ".gitignore" then false else true
  else EXCLUDE_PATTERNS.any fun pat =>
    if pat == ".git" then false
    else if containsSub pat.data (pathStr p).data || pathName p == pat then true
    else if pat.data.contains '*' && globMatch pat.data (pathName p).data then true
    else false

/-- `DIRECTORY_RENAMES` from the script. -/
def DIRECTORY_RENAMES : List (String × String) :=
  [("template_core", "\x7b\x7bcookiecutter.project_slug\x7d\x7d_core"),
   ("template_tools", "\x7b\x7bcookiecutter.project_slug\x7d\x7d_tools")]

/-- `TEMPLATE_ROOT`, the output directory followed by the project-slug placeholder directory, as a segment list. -/
def TEMPLATE_ROOT : List String :=
  ["cookiecutter-output", "\x7b\x7bcookiecutter.project_slug\x7d\x7d"]

/-- `get_template_path` from the script: drop a leading `.` marker, map
each segment through `DIRECTORY_RENAMES`, and prepend the template root.
(The source builds `new_parts` by appending in a loop; the fold mirrors
that. `rglob`-relative inputs are nonempty, which the embedding does not
need to special-case since list append absorbs the empty case.) -/
def get_template_path (source_path : List String) : List String :=
  let parts := if source_path.head? == some "." then source_path.tail else source_path
  let new_parts := parts.foldl
    (fun acc part =>
      acc ++ [match DIRECTORY_RENAMES.lookup part with
              | some r => r
              | none => part]) []
  TEMPLATE_ROOT ++ new_parts

/-- Worker for `pyReplace`: the first argument counts characters of an
already-recognised match still to be skipped. Structural in the string so
that applications reduce definitionally. -/
def pyReplaceAux (q r : List Char) : Nat → List Char → List Char
  | _, [] => []
  | k + 1, _ :: cs => pyReplaceAux q r k cs
  | 0, c :: cs =>
    if q ≠ [] ∧ q.isPrefixOf (c :: cs) then
      r ++ pyReplaceAux q r (q.length - 1) cs
    else
      c :: pyReplaceAux q r 0 cs

/-- Left-to-right non-overlapping replacement of the fixed literal `q` by
`r`: the semantics of Python `str.replace(q, r)` and of `re.sub` when the
pattern is a fixed literal (all metacharacters escaped). -/
def pyReplace (q r s : List Char) : List Char :=
  pyReplaceAux q r 0 s

/-- `\w` at its ASCII core: letters, digits and underscore. -/
def isWordChar (c : Char) : Bool := c.isAlphanum || c == '_'

/-- One atom of the non-literal regex patterns of the script: a fixed literal
piece, or a greedy `+` over a character class. -/
inductive Atom
  | lit (l : List Char)
  | plus (f : Char → Bool)

/-- Context requirement at the start of a match: none, `^` under
`re.MULTILINE` (start of string or just after a newline), or `\b` before a
pattern starting with a word character (start of string or a non-word
previous character). -/
inductive Pre
  | free
  | lineStart
  | wordBoundary

/-- Requirement after the match: none, or `\b` after a pattern ending in a
word character (end of string or a non-word next character). -/
inductive Post
  | free
  | wordBoundary

/-- One non-literal pattern of the script. -/
structure Rule where
  pre : Pre
  atoms : List Atom
  post : Post

/-- Match the atom list at the head of `s`, returning the number of
characters consumed. Greedy without backtracking: in every pattern of the
script a `+`-class is followed by a character outside its class (or the
pattern end), so this agrees with the Python leftmost-greedy semantics. -/
def matchAtoms : List Atom → List Char → Option Nat
  | [], _ => some 0
  | .lit l :: as, s =>
    if l.isPrefixOf s then (matchAtoms as (s.drop l.length)).map (· + l.length)
    else none
  | .plus f :: as, s =>
    let run := s.takeWhile f
    if run.isEmpty then none
    else (matchAtoms as (s.dropWhile f)).map (· + run.length)

/-- The post-context check, applied to the remainder after the match. -/
def postOk : Post → List Char → Bool
  | .free, _ => true
  | .wordBoundary, [] => true
  | .wordBoundary, c :: _ => !isWordChar c

/-- Atoms plus post-context: everything of a match that does not depend on
the character before the match. -/
def matchCore (ru : Rule) (s : List Char) : Option Nat :=
  match matchAtoms ru.atoms s with
  | none => none
  | some n => if postOk ru.post (s.drop n) then some n else none

/-- The pre-context check against the character preceding the match
position (`none` at the start of the string). -/
def preOk : Pre → Option Char → Bool
  | .free, _ => true
  | .lineStart, none => true
  | .lineStart, some c => c == '\n'
  | .wordBoundary, none => true
  | .wordBoundary, some c => !isWordChar c

/-- Whether the rule matches at the head of `s`, given the preceding
character. -/
def matchRule (ru : Rule) (prev : Option Char) (s : List Char) : Option Nat :=
  if preOk ru.pre prev then matchCore ru s else none

/-- Worker for the `re.sub` scanner: the `Nat` argument counts characters
of an already-recognised match still to be skipped (each skipped original
character becomes the previous-character context). Structural in the
string so that applications reduce definitionally. -/
def subAuxS (ru : Rule) (repl : List Char) : Nat → Option Char → List Char → List Char
  | _, _, [] => []
  | k + 1, _, c :: cs => subAuxS ru repl k (some c) cs
  | 0, prev, c :: cs =>
    match matchRule ru prev (c :: cs) with
    | some (n + 1) => repl ++ subAuxS ru repl n (some c) cs
    | _ => c :: subAuxS ru repl 0 (some c) cs

/-- Scanner for `re.sub` with a `Rule`: walk the string, replace each
leftmost non-overlapping match by `repl`, tracking the previous original
character for `^`/`\b` contexts. All rules of the script match at least
one character; a zero-width result is treated as no match. -/
def subAux (ru : Rule) (repl : List Char) (prev : Option Char) (s : List Char) : List Char :=
  subAuxS ru repl 0 prev s

/-- `re.sub(pattern, repl, s)` for a non-literal pattern of the script. -/
def reSub (ru : Rule) (repl s : List Char) : List Char :=
  subAux ru repl none s

/-- `re.sub` for a fixed-literal pattern, as a `Rule` with a single
literal atom (shown below to coincide with `pyReplace`). -/
def reSubLit (q r s : List Char) : List Char :=
  subAux ⟨.free, [.lit q], .free⟩ r none s

/-- Pattern `authors = \["[^"]+"\]` of the `pyproject.toml` branch. -/
def authorsRule : Rule :=
  ⟨.free, [.lit "authors = [\"".data, .plus (fun c => !(c == '"')), .lit "\"]".data], .free⟩

/-- The `pyproject.toml` branch of `process_text_content`. -/
def pyprojectRules (content : List Char) : List Char :=
  let c1 := reSubLit "name = \"template_core\"".data
    "name = \"\x7b\x7bcookiecutter.project_slug\x7d\x7d_core\"".data content
  let c2 := reSubLit "name = \"template_tools\"".data
    "name = \"\x7b\x7bcookiecutter.project_slug\x7d\x7d_tools\"".data c1
  let c3 := reSubLit "name = \"template-tools\"".data
    "name = \"\x7b\x7bcookiecutter.project_slug\x7d\x7d-tools\"".data c2
  let c4 := reSubLit "template-core = \"template_core.cli:main\"".data
    "\x7b\x7bcookiecutter.project_slug\x7d\x7d-core = \"\x7b\x7bcookiecutter.project_slug\x7d\x7d_core.cli:main\"".data c3
  let c5 := reSubLit "template-tools = \"template_tools.cli:main\"".data
    "\x7b\x7bcookiecutter.project_slug\x7d\x7d-tools = \"\x7b\x7bcookiecutter.project_slug\x7d\x7d_tools.cli:main\"".data c4
  let c6 := reSub authorsRule
    "authors = [\"\x7b\x7bcookiecutter.author_name\x7d\x7d <\x7b\x7bcookiecutter.author_email\x7d\x7d>\"]".data c5
  let c7 := reSubLit "template_tools = \x7b path = \"../template_tools/\", develop = true \x7d".data
    "\x7b\x7bcookiecutter.project_slug\x7d\x7d_tools = \x7b path = \"../\x7b\x7bcookiecutter.project_slug\x7d\x7d_tools/\", develop = true \x7d".data c6
  let c8 := reSubLit "description = \"Core functionality for the template project.\"".data
    "description = \"Core functionality for the \x7b\x7bcookiecutter.project_name\x7d\x7d project.\"".data c7
  let c9 := reSubLit "description = \"Shared utils for the template project.\"".data
    "description = \"Shared utils for the \x7b\x7bcookiecutter.project_name\x7d\x7d project.\"".data c8
  c9

/-- Pattern `USER_NAME=\w+` of the `.env` branch. -/
def userNameRule : Rule :=
  ⟨.free, [.lit "USER_NAME=".data, .plus isWordChar], .free⟩

/-- Pattern `IMAGE_VERSION=v\d+\.\d+\.\d+` of the `.env` branch. -/
def imageVersionRule : Rule :=
  ⟨.free, [.lit "IMAGE_VERSION=v".data, .plus Char.isDigit, .lit ".".data,
           .plus Char.isDigit, .lit ".".data, .plus Char.isDigit], .free⟩

/-- The `.env` branch of `process_text_content`. -/
def envRules (content : List Char) : List Char :=
  let c1 := reSubLit "IMAGE_NAME=template".data
    "IMAGE_NAME=\x7b\x7bcookiecutter.docker_image_name\x7d\x7d".data content
  let c2 := reSub userNameRule
    "USER_NAME=\x7b\x7bcookiecutter.user_name\x7d\x7d".data c1
  let c3 := reSub imageVersionRule
    "IMAGE_VERSION=\x7b\x7bcookiecutter.docker_image_version\x7d\x7d".data c2
  c3

/-- Pattern `"image": "template:v\d+\.\d+\.\d+"` of the
`devcontainer.json` branch. -/
def imageRule : Rule :=
  ⟨.free, [.lit "\"image\": \"template:v".data, .plus Char.isDigit, .lit ".".data,
           .plus Char.isDigit, .lit ".".data, .plus Char.isDigit, .lit "\"".data], .free⟩

/-- The `devcontainer.json` branch of `process_text_content`. -/
def devcontainerRules (content : List Char) : List Char :=
  let c1 := reSubLit "\"name\": \"template\"".data
    "\"name\": \"\x7b\x7bcookiecutter.project_name\x7d\x7d\"".data content
  let c2 := reSub imageRule
    "\"image\": \"\x7b\x7bcookiecutter.docker_image_name\x7d\x7d:\x7b\x7bcookiecutter.docker_image_version\x7d\x7d\"".data c1
  let c3 := reSubLit "/home/klapaucius/".data
    "/home/\x7b\x7bcookiecutter.user_name\x7d\x7d/".data c2
  c3

/-- The `compose.yaml` branch of `process_text_content`. -/
def composeRules (content : List Char) : List Char :=
  reSubLit "template-dev:".data
    "\x7b\x7bcookiecutter.docker_service_name\x7d\x7d:".data content

/-- The shell-script / `pre-commit` branch of `process_text_content`: the
home-path rewrite, then escaping of `$\x7b#` (which Jinja2 would read as a
comment opener) via `str.replace`. -/
def shellRules (content : List Char) : List Char :=
  let c1 := reSubLit "/home/klapaucius/".data
    "/home/\x7b\x7bcookiecutter.user_name\x7d\x7d/".data content
  if containsSub "$\x7b#".data c1 then
    pyReplace "$\x7b#".data "\x7b\x7b \x27$\x7b#\x27 \x7d\x7d".data c1
  else c1

/-- Pattern `^# Template Project` under `re.MULTILINE` of the `README.md`
branch. -/
def readmeTitleRule : Rule :=
  ⟨.lineStart, [.lit "# Template Project".data], .free⟩

/-- Pattern `\btemplate_core\b`. -/
def coreWordRule : Rule :=
  ⟨.wordBoundary, [.lit "template_core".data], .wordBoundary⟩

/-- Pattern `\btemplate_tools\b`. -/
def toolsWordRule : Rule :=
  ⟨.wordBoundary, [.lit "template_tools".data], .wordBoundary⟩

/-- Pattern `\btemplate-tools\b`. -/
def toolsDashWordRule : Rule :=
  ⟨.wordBoundary, [.lit "template-tools".data], .wordBoundary⟩

/-- Pattern `\bklapaucius\b`. -/
def userWordRule : Rule :=
  ⟨.wordBoundary, [.lit "klapaucius".data], .wordBoundary⟩

/-- The `README.md` branch of `process_text_content`. -/
def readmeRules (content : List Char) : List Char :=
  let c1 := reSubLit "> **📦 Using this as a Cookiecutter Template?** See [COOKIECUTTER_README.md](COOKIECUTTER_README.md) for instructions on generating new projects from this template.\n\n".data
    "".data content
  let c2 := reSub readmeTitleRule "# \x7b\x7bcookiecutter.project_name\x7d\x7d".data c1
  let c3 := reSubLit "git clone git@github.com:jackhjfission/template.git".data
    "git clone <your-repo-url>".data c2
  let c4 := reSubLit "cd template".data
    "cd \x7b\x7bcookiecutter.project_slug\x7d\x7d".data c3
  let c5 := reSub coreWordRule "\x7b\x7bcookiecutter.project_slug\x7d\x7d_core".data c4
  let c6 := reSub toolsWordRule "\x7b\x7bcookiecutter.project_slug\x7d\x7d_tools".data c5
  let c7 := reSub toolsDashWordRule "\x7b\x7bcookiecutter.project_slug\x7d\x7d-tools".data c6
  let c8 := reSubLit "A Python monorepo template".data
    "A Python monorepo for \x7b\x7bcookiecutter.project_name\x7d\x7d".data c7
  let c9 := reSub userWordRule "\x7b\x7bcookiecutter.user_name\x7d\x7d".data c8
  let c10 := reSubLit "IMAGE_NAME=template".data
    "IMAGE_NAME=\x7b\x7bcookiecutter.docker_image_name\x7d\x7d".data c9
  c10

/-- The `.py` branch of `process_text_content`. -/
def pyRules (content : List Char) : List Char :=
  let c1 := reSub coreWordRule "\x7b\x7bcookiecutter.project_slug\x7d\x7d_core".data content
  let c2 := reSub toolsWordRule "\x7b\x7bcookiecutter.project_slug\x7d\x7d_tools".data c1
  c2

/-- The `.pre-commit-config.yaml` branch of `process_text_content`. -/
def preCommitConfigRules (content : List Char) : List Char :=
  let c1 := reSubLit "--config-file=template_core/mypy.ini".data
    "--config-file=\x7b\x7bcookiecutter.project_slug\x7d\x7d_core/mypy.ini".data content
  let c2 := reSubLit "--config-file=template_tools/mypy.ini".data
    "--config-file=\x7b\x7bcookiecutter.project_slug\x7d\x7d_tools/mypy.ini".data c1
  c2

/-- The raw-block wrap applied by the workflow branch when the content
contains the Jinja2-colliding delimiter `$\x7b\x7b`. -/
def rawWrap (content : List Char) : List Char :=
  "\x7b% raw %\x7d".data ++ content ++ "\x7b% endraw %\x7d".data

/-- The GitHub-Actions workflow (`.yml`/`.yaml`) branch of
`process_text_content`. -/
def workflowRules (content : List Char) : List Char :=
  if containsSub "$\x7b\x7b".data content then rawWrap content else content

/-- The filename dispatch of `process_text_content` (the `elif` chain of
the source, in source order; unmatched filenames pass through). -/
def processNamed (content : List Char) (filename : List Char) : List Char :=
  if filename == "pyproject.toml".data then pyprojectRules content
  else if filename == ".env".data then envRules content
  else if filename == "devcontainer.json".data then devcontainerRules content
  else if filename == "compose.yaml".data then composeRules content
  else if ".sh".data.isSuffixOf filename || filename == "pre-commit".data then
    shellRules content
  else if filename == "README.md".data then readmeRules content
  else if ".py".data.isSuffixOf filename then pyRules content
  else if filename == ".pre-commit-config.yaml".data then preCommitConfigRules content
  else if ".yml".data.isSuffixOf filename || ".yaml".data.isSuffixOf filename then
    workflowRules content
  else content

/-- `process_text_content(content, filepath)`: the source computes
`filename = filepath.name` and dispatches on it. -/
def process_text_content (content : List Char) (filepath : PathInfo) : List Char :=
  processNamed content (pathName filepath).data

/-- UTF-8 continuation byte. -/
def isCont (b : UInt8) : Bool := decide (0x80 ≤ b ∧ b ≤ 0xBF)

/-- Byte state machine for strict UTF-8 decoding: `pending` continuation
bytes are still expected for the current sequence, `acc` is the value
accumulated so far and `minv` the smallest value the current sequence
length is allowed to encode (overlong rejection); completed values must
also avoid the surrogate range and stay within `U+10FFFF`. -/
def decodeUtf8Go : List UInt8 → Nat → Nat → Nat → Option (List Char)
  | [], 0, _, _ => some []
  | [], _ + 1, _, _ => none
  | b :: bs, 0, _, _ =>
    if b ≤ 0x7F then (decodeUtf8Go bs 0 0 0).map (fun t => Char.ofNat b.toNat :: t)
    else if 0xC2 ≤ b ∧ b ≤ 0xDF then decodeUtf8Go bs 1 (b.toNat - 0xC0) 0x80
    else if 0xE0 ≤ b ∧ b ≤ 0xEF then decodeUtf8Go bs 2 (b.toNat - 0xE0) 0x800
    else if 0xF0 ≤ b ∧ b ≤ 0xF4 then decodeUtf8Go bs 3 (b.toNat - 0xF0) 0x10000
    else none
  | b :: bs, p + 1, acc, minv =>
    if isCont b then
      let acc2 := acc * 64 + (b.toNat - 0x80)
      if p = 0 then
        if minv ≤ acc2 ∧ (acc2 < 0xD800 ∨ 0xDFFF < acc2) ∧ acc2 ≤ 0x10FFFF then
          (decodeUtf8Go bs 0 0 0).map (fun t => Char.ofNat acc2 :: t)
        else none
      else decodeUtf8Go bs p acc2 minv
    else none

/-- Strict UTF-8 decoding, the semantics of reading a file in UTF-8 text
mode: `none` exactly when Python raises `UnicodeDecodeError`. -/
def decodeUtf8 (bytes : List UInt8) : Option (List Char) :=
  decodeUtf8Go bytes 0 0 0

/-- Universal-newline translation performed by Python text-mode reading:
`\r\n` and lone `\r` both become `\n`. -/
def univNewlines : List Char → List Char
  | [] => []
  | '\r' :: '\n' :: rest => '\n' :: univNewlines rest
  | '\r' :: rest => '\n' :: univNewlines rest
  | c :: rest => c :: univNewlines rest

/-- UTF-8 encoding of one character. -/
def encodeChar (c : Char) : List UInt8 :=
  let n := c.toNat
  if n < 0x80 then [UInt8.ofNat n]
  else if n < 0x800 then
    [UInt8.ofNat (0xC0 + n / 64), UInt8.ofNat (0x80 + n % 64)]
  else if n < 0x10000 then
    [UInt8.ofNat (0xE0 + n / 4096), UInt8.ofNat (0x80 + (n / 64) % 64),
     UInt8.ofNat (0x80 + n % 64)]
  else
    [UInt8.ofNat (0xF0 + n / 262144), UInt8.ofNat (0x80 + (n / 4096) % 64),
     UInt8.ofNat (0x80 + (n / 64) % 64), UInt8.ofNat (0x80 + n % 64)]

/-- UTF-8 encoding, the semantics of writing the processed text back on
Linux (where text-mode writing translates nothing). -/
def encodeUtf8 (s : List Char) : List UInt8 :=
  s.foldr (fun c acc => encodeChar c ++ acc) []

/-- `copy_and_process_file`, modelled as the destination bytes produced
from the source bytes: try to decode as UTF-8 text and process the text
through the transformer; a `UnicodeDecodeError` is caught and the raw
bytes are copied unchanged (`shutil.copy2`). -/
def copy_and_process_file (sourceBytes : List UInt8) (source : PathInfo) : List UInt8 :=
  match decodeUtf8 sourceBytes with
  | some content => encodeUtf8 (process_text_content (univNewlines content) source)
  | none => sourceBytes

/-- No occurrence of the pattern `p` can begin strictly inside the
replacement `r` (neither a full occurrence, nor a partial one running off
the end of `r`). Together with `tailFree` this guarantees that replacing
`p`-occurrences never manufactures new ones. -/
def startFree (p r : List Char) : Bool :=
  (List.range r.length).all fun i =>
    if (r.drop i).length < p.length then !((r.drop i).isPrefixOf p)
    else !(p.isPrefixOf (r.drop i))

/-- No proper tail of the pattern `p` can continue a match across the
start of an inserted copy of the replacement `r`. -/
def tailFree (p r : List Char) : Bool :=
  (List.range p.length).all fun j =>
    (j == 0) ||
    (if (p.drop j).length ≤ r.length then !((p.drop j).isPrefixOf r)
     else !(r.isPrefixOf (p.drop j)))

/-- Non-overlap of a pattern with a replacement string: sufficient for
replacement to leave no occurrence of the pattern in its output. -/
def overlapFree (p r : List Char) : Bool := startFree p r && tailFree p r

/-- Stated from the words of the spec for claim C2: a single exclusion rule
matches a path if — glob matching on a wildcard pattern, otherwise
substring-of-the-full-path-string or exact equality with the final
segment. -/
def patternMatches (pat : String) (p : PathInfo) : Bool :=
  if pat.data.contains '*' then globMatch pat.data (pathName p).data
  else containsSub pat.data (pathStr p).data || pathName p == pat

/-- Stated from the words of the spec for claim C3: a whole segment is
replaced by its rename-table entry when it is a key and kept otherwise. -/
def renameSeg (s : String) : String :=
  if s = "template_core" then "\x7b\x7bcookiecutter.project_slug\x7d\x7d_core"
  else if s = "template_tools" then "\x7b\x7bcookiecutter.project_slug\x7d\x7d_tools"
  else s

/-! ### General helper lemmas -/

theorem isPrefixOf_true {l₁ l₂ : List Char} : l₁.isPrefixOf l₂ = true ↔ l₁ <+: l₂ :=
  List.isPrefixOf_iff_prefix

theorem isSuffixOf_true {l₁ l₂ : List Char} : l₁.isSuffixOf l₂ = true ↔ l₁ <:+ l₂ :=
  List.isSuffixOf_iff_suffix

theorem take_isPre (n : Nat) (l : List Char) : l.take n <+: l :=
  List.take_prefix n l

theorem nil_isPre {l : List Char} : [] <+: l :=
  List.nil_prefix

theorem containsSub_iff {q s : List Char} : containsSub q s = true ↔ q <:+: s := by
  induction s with
  | nil => simp [containsSub, List.infix_nil, List.isEmpty_iff]
  | cons c cs ih =>
    simp [containsSub, List.infix_cons_iff, ih, isPrefixOf_true]

theorem hasSeg_iff {a : String} {l : List String} : hasSeg a l = true ↔ a ∈ l := by
  induction l with
  | nil => simp [hasSeg]
  | cons x xs ih =>
    simp only [hasSeg, Bool.or_eq_true, beq_iff_eq, ih, List.mem_cons]
    constructor
    · rintro (h | h)
      · exact Or.inl h.symm
      · exact Or.inr h
    · rintro (h | h)
      · exact Or.inl h.symm
      · exact Or.inr h

theorem not_infix_of_absent {c : Char} {p s : List Char} (hc : c ∈ p) (hs : c ∉ s) :
    ¬ p <:+: s := fun h => hs (h.sublist.subset hc)

theorem prefix_append_split {a b c : List Char} (h : a <+: b ++ c) :
    (a.length ≤ b.length ∧ a <+: b) ∨ (b <+: a ∧ a.drop b.length <+: c) := by
  rcases le_or_lt a.length b.length with hle | hlt
  · left
    refine ⟨hle, ?_⟩
    have ha := List.prefix_iff_eq_take.mp h
    rw [List.take_append_eq_append_take, Nat.sub_eq_zero_of_le hle,
      List.take_zero, List.append_nil] at ha
    rw [ha]
    exact take_isPre _ _
  · right
    have ha := List.prefix_iff_eq_take.mp h
    rw [List.take_append_eq_append_take, List.take_of_length_le (le_of_lt hlt)] at ha
    constructor
    · rw [ha]; exact List.prefix_append _ _
    · rw [ha, List.drop_left]
      exact take_isPre _ _

theorem infix_append_split {p b c : List Char} (h : p <:+: b ++ c) :
    (∃ i < b.length, p <+: b.drop i ++ c) ∨ p <:+: c := by
  induction b with
  | nil => right; simpa using h
  | cons x b' ih =>
    rw [List.cons_append, List.infix_cons_iff] at h
    rcases h with h | h
    · left
      exact ⟨0, by simp, by simpa using h⟩
    · rcases ih h with ⟨i, hi, hpre⟩ | h2
      · left
        refine ⟨i + 1, by simpa using hi, ?_⟩
        simpa using hpre
      · right; exact h2

/-! ### Recursion equations and induction for `pyReplace` -/

theorem pyReplaceAux_skip {q r : List Char} :
    ∀ (s : List Char) (k : Nat), pyReplaceAux q r k s = pyReplace q r (s.drop k) := by
  intro s
  induction s with
  | nil => intro k; simp [pyReplaceAux, pyReplace]
  | cons c cs ih =>
    intro k
    match k with
    | 0 => simp [pyReplace]
    | k' + 1 =>
      show pyReplaceAux q r k' cs = _
      rw [ih k', List.drop_succ_cons]

theorem pyReplace_nil {q r : List Char} : pyReplace q r [] = [] := rfl

theorem pyReplace_cons {q r : List Char} {c : Char} {cs : List Char} :
    pyReplace q r (c :: cs) =
      if q ≠ [] ∧ q.isPrefixOf (c :: cs) then
        r ++ pyReplace q r ((c :: cs).drop q.length)
      else
        c :: pyReplace q r cs := by
  show pyReplaceAux q r 0 (c :: cs) = _
  rw [pyReplaceAux]
  by_cases h : q ≠ [] ∧ q.isPrefixOf (c :: cs)
  · rw [if_pos h, if_pos h, pyReplaceAux_skip]
    have hq : q.length ≠ 0 := fun h0 => h.1 (List.length_eq_zero.mp h0)
    have hd : (c :: cs).drop q.length = cs.drop (q.length - 1) := by
      match hql : q.length with
      | 0 => exact absurd hql hq
      | m + 1 => simp [List.drop_succ_cons]
    rw [hd]
  · rw [if_neg h, if_neg h]
    rfl

theorem replaceRec {q : List Char} {P : List Char → Prop} (h0 : P [])
    (h1 : ∀ c cs, (q ≠ [] ∧ q.isPrefixOf (c :: cs) = true) →
      P ((c :: cs).drop q.length) → P (c :: cs))
    (h2 : ∀ c cs, ¬(q ≠ [] ∧ q.isPrefixOf (c :: cs) = true) → P cs → P (c :: cs)) :
    ∀ s, P s := by
  have key : ∀ n s, s.length ≤ n → P s := by
    intro n
    induction n with
    | zero =>
      intro s hs
      rw [List.length_eq_zero.mp (Nat.le_zero.mp hs)]
      exact h0
    | succ n ih =>
      intro s hs
      match s with
      | [] => exact h0
      | c :: cs =>
        by_cases hc : q ≠ [] ∧ q.isPrefixOf (c :: cs) = true
        · refine h1 c cs hc (ih _ ?_)
          have hq : 0 < q.length := List.length_pos.mpr hc.1
          simp only [List.length_drop, List.length_cons]
          simp only [List.length_cons] at hs
          omega
        · refine h2 c cs hc (ih _ ?_)
          simp only [List.length_cons] at hs
          omega
  intro s
  exact key s.length s le_rfl

/-! ### Non-overlap conditions and idempotence for `pyReplace` -/

theorem startFree_spec {p r : List Char} (hf : startFree p r = true) :
    ∀ i < r.length, ∀ x : List Char, ¬ p <+: (r.drop i ++ x) := by
  intro i hi x hpre
  have hb := (List.all_eq_true.mp hf) i (List.mem_range.mpr hi)
  rcases prefix_append_split hpre with ⟨hle, hp2⟩ | ⟨hp2, -⟩
  · by_cases hlen : (r.drop i).length < p.length
    · omega
    · rw [if_neg hlen] at hb
      simp [isPrefixOf_true.mpr hp2] at hb
  · by_cases hlen : (r.drop i).length < p.length
    · rw [if_pos hlen] at hb
      simp [isPrefixOf_true.mpr hp2] at hb
    · have heq : r.drop i = p := hp2.eq_of_length (by have := hp2.length_le; omega)
      rw [if_neg hlen] at hb
      have hpp : p <+: r.drop i := heq ▸ List.prefix_refl p
      simp [isPrefixOf_true.mpr hpp] at hb

theorem tailFree_spec {p r : List Char} (hf : tailFree p r = true) :
    ∀ j, 0 < j → j < p.length → ∀ x : List Char, ¬ (p.drop j) <+: (r ++ x) := by
  intro j hj hjp x hpre
  have hb := (List.all_eq_true.mp hf) j (List.mem_range.mpr hjp)
  have hj0 : (j == 0) = false := by
    simp only [beq_eq_false_iff_ne]
    omega
  rw [hj0, Bool.false_or] at hb
  rcases prefix_append_split hpre with ⟨hle, hp2⟩ | ⟨hp2, -⟩
  · by_cases hlen : (p.drop j).length ≤ r.length
    · rw [if_pos hlen] at hb
      simp [isPrefixOf_true.mpr hp2] at hb
    · omega
  · by_cases hlen : (p.drop j).length ≤ r.length
    · have heq : r = p.drop j := hp2.eq_of_length (by have := hp2.length_le; omega)
      rw [if_pos hlen] at hb
      have hpp : (p.drop j) <+: r := heq ▸ List.prefix_refl r
      simp [isPrefixOf_true.mpr hpp] at hb
    · rw [if_neg hlen] at hb
      simp [isPrefixOf_true.mpr hp2] at hb

theorem overlapFree_start {p r : List Char} (hf : overlapFree p r = true) :
    startFree p r = true := by
  simp only [overlapFree, Bool.and_eq_true] at hf
  exact hf.1

theorem overlapFree_tail {p r : List Char} (hf : overlapFree p r = true) :
    tailFree p r = true := by
  simp only [overlapFree, Bool.and_eq_true] at hf
  exact hf.2

/-- If a tail of the pattern `p` is a prefix of the output of a
replacement, it was already a prefix of the input: under `overlapFree`,
inserted copies of `r` can neither start nor continue an occurrence of
`p`. -/
theorem replace_tail_track {p r q : List Char} (hf : overlapFree p r = true)
    (hr : r ≠ []) :
    ∀ s j, j < p.length → (p.drop j) <+: pyReplace q r s → (p.drop j) <+: s := by
  have hsf := overlapFree_start hf
  have htf := overlapFree_tail hf
  have key : ∀ n s j, s.length ≤ n → j < p.length →
      (p.drop j) <+: pyReplace q r s → (p.drop j) <+: s := by
    intro n
    induction n with
    | zero =>
      intro s j hs hj hpre
      rw [List.length_eq_zero.mp (Nat.le_zero.mp hs)] at hpre ⊢
      rw [pyReplace_nil] at hpre
      exact hpre
    | succ n ih =>
      intro s j hs hj hpre
      match s with
      | [] =>
        rw [pyReplace_nil] at hpre
        exact hpre
      | c :: cs =>
        rw [pyReplace_cons] at hpre
        by_cases hc : q ≠ [] ∧ q.isPrefixOf (c :: cs) = true
        · rw [if_pos hc] at hpre
          exfalso
          rcases Nat.eq_zero_or_pos j with hj0 | hjpos
          · subst hj0
            rw [List.drop_zero] at hpre
            have h0r : 0 < r.length := List.length_pos.mpr hr
            have := startFree_spec hsf 0 h0r (pyReplace q r ((c :: cs).drop q.length))
            rw [List.drop_zero] at this
            exact this hpre
          · exact tailFree_spec htf j hjpos hj _ hpre
        · rw [if_neg hc] at hpre
          rw [List.drop_eq_getElem_cons hj] at hpre ⊢
          rw [List.cons_prefix_cons] at hpre ⊢
          refine ⟨hpre.1, ?_⟩
          rcases Nat.lt_or_ge (j + 1) p.length with hj1 | hj1
          · exact ih cs (j + 1) (by simp only [List.length_cons] at hs; omega) hj1 hpre.2
          · rw [List.drop_eq_nil_iff.mpr hj1]
            exact nil_isPre
  intro s j hj hpre
  exact key s.length s j le_rfl hj hpre

/-- Under `overlapFree`, replacing `q` by `r` leaves no occurrence of `p`
in the output — both for `p = q` (self case, arbitrary input) and for a
foreign pattern `p` absent from the input. -/
theorem replace_no_occur {p r q : List Char} (hf : overlapFree p r = true)
    (hp : p ≠ []) (hr : r ≠ []) :
    ∀ s, (p = q ∨ ¬ p <:+: s) → ¬ p <:+: pyReplace q r s := by
  have hsf := overlapFree_start hf
  have key : ∀ n s, s.length ≤ n → (p = q ∨ ¬ p <:+: s) →
      ¬ p <:+: pyReplace q r s := by
    intro n
    induction n with
    | zero =>
      intro s hs _ hinf
      rw [List.length_eq_zero.mp (Nat.le_zero.mp hs), pyReplace_nil,
        List.infix_nil] at hinf
      exact hp hinf
    | succ n ih =>
      intro s hs hd hinf
      match s with
      | [] =>
        rw [pyReplace_nil, List.infix_nil] at hinf
        exact hp hinf
      | c :: cs =>
        rw [pyReplace_cons] at hinf
        by_cases hc : q ≠ [] ∧ q.isPrefixOf (c :: cs) = true
        · rw [if_pos hc] at hinf
          rcases infix_append_split hinf with ⟨i, hi, hpre⟩ | hinf2
          · exact startFree_spec hsf i hi _ hpre
          · have hlen : ((c :: cs).drop q.length).length ≤ n := by
              have hq : 0 < q.length := List.length_pos.mpr hc.1
              simp only [List.length_drop, List.length_cons]
              simp only [List.length_cons] at hs
              omega
            refine ih _ hlen ?_ hinf2
            rcases hd with hd | hd
            · exact Or.inl hd
            · right
              intro hx
              exact hd (hx.trans (List.drop_suffix _ _).isInfix)
        · rw [if_neg hc] at hinf
          rw [List.infix_cons_iff] at hinf
          rcases hinf with hpre | hinf2
          · have heq : (c :: pyReplace q r cs) = pyReplace q r (c :: cs) := by
              rw [pyReplace_cons, if_neg hc]
            rw [heq] at hpre
            have hps : p <+: (c :: cs) := by
              have h0 := replace_tail_track (q := q) hf hr (c :: cs) 0
                (List.length_pos.mpr hp)
              rw [List.drop_zero] at h0
              exact h0 hpre
            rcases hd with hd | hd
            · subst hd
              exact hc ⟨hp, isPrefixOf_true.mpr hps⟩
            · exact hd hps.isInfix
          · refine ih cs (by simp only [List.length_cons] at hs; omega) ?_ hinf2
            rcases hd with hd | hd
            · exact Or.inl hd
            · right
              intro hx
              exact hd (hx.trans (List.suffix_cons c cs).isInfix)
  intro s
  exact key s.length s le_rfl

/-- A string with no occurrence of the pattern is left unchanged. -/
theorem replace_eq_self {p r s : List Char} (h : ¬ p <:+: s) :
    pyReplace p r s = s := by
  induction s with
  | nil => exact pyReplace_nil
  | cons c cs ih =>
    rw [pyReplace_cons]
    have hc : ¬(p ≠ [] ∧ p.isPrefixOf (c :: cs) = true) := by
      rintro ⟨-, hpre⟩
      exact h (isPrefixOf_true.mp hpre).isInfix
    rw [if_neg hc]
    have hcs : ¬ p <:+: cs := fun hx => h (hx.trans (List.suffix_cons c cs).isInfix)
    rw [ih hcs]

/-- Idempotence of literal replacement under the non-overlap condition. -/
theorem replace_idem {p r : List Char} (hf : overlapFree p r = true)
    (hp : p ≠ []) (hr : r ≠ []) (s : List Char) :
    pyReplace p r (pyReplace p r s) = pyReplace p r s :=
  replace_eq_self (replace_no_occur hf hp hr s (Or.inl rfl))

/-! ### Lemmas about the `re.sub` scanner -/

theorem matchRule_free {ru : Rule} (hru : ru.pre = Pre.free)
    (prev : Option Char) (s : List Char) : matchRule ru prev s = matchCore ru s := by
  rw [matchRule, hru]
  rfl

theorem subAuxS_skip_free {ru : Rule} {repl : List Char} (hru : ru.pre = Pre.free) :
    ∀ (s : List Char) (k : Nat) (prev prev' : Option Char),
      subAuxS ru repl k prev s = subAuxS ru repl 0 prev' (s.drop k) := by
  intro s
  induction s with
  | nil => intro k prev prev'; cases k <;> rfl
  | cons c cs ih =>
    intro k prev prev'
    match k with
    | 0 =>
      show subAuxS ru repl 0 prev (c :: cs) = subAuxS ru repl 0 prev' (c :: cs)
      rw [subAuxS, subAuxS, matchRule_free hru, matchRule_free hru]
    | k' + 1 =>
      show subAuxS ru repl k' (some c) cs = _
      rw [ih k' (some c) prev', List.drop_succ_cons]

theorem subAuxS_skip_all {ru : Rule} {repl : List Char} :
    ∀ (s : List Char) (k : Nat) (prev : Option Char), s.length ≤ k →
      subAuxS ru repl k prev s = [] := by
  intro s
  induction s with
  | nil => intro k prev _; cases k <;> rfl
  | cons c cs ih =>
    intro k prev hk
    match k with
    | 0 => simp at hk
    | k' + 1 =>
      show subAuxS ru repl k' (some c) cs = []
      refine ih k' (some c) ?_
      simp only [List.length_cons] at hk
      omega

/-- A rule matching the whole string rewrites it to the replacement. -/
theorem reSub_full {ru : Rule} {repl s : List Char}
    (h : matchRule ru none s = some s.length) (hs : s ≠ []) :
    reSub ru repl s = repl := by
  match s with
  | [] => exact absurd rfl hs
  | c :: cs =>
    show subAuxS ru repl 0 none (c :: cs) = repl
    rw [subAuxS, h]
    show repl ++ subAuxS ru repl cs.length (some c) cs = repl
    rw [subAuxS_skip_all cs cs.length (some c) le_rfl, List.append_nil]

/-- If the position-independent part of the rule matches nowhere, the
scanner is the identity. -/
theorem subAuxS_id_of_noMatch {ru : Rule} {repl : List Char} :
    ∀ s : List Char, (∀ i < s.length, matchCore ru (s.drop i) = none) →
      ∀ prev, subAuxS ru repl 0 prev s = s := by
  intro s
  induction s with
  | nil => intro _ prev; rfl
  | cons c cs ih =>
    intro h prev
    have h0 : matchCore ru (c :: cs) = none := by
      have := h 0 (by simp)
      simpa using this
    have hmr : matchRule ru prev (c :: cs) = none := by
      rw [matchRule, h0]
      exact ite_self none
    rw [subAuxS, hmr]
    show c :: subAuxS ru repl 0 (some c) cs = c :: cs
    have hcs : ∀ i < cs.length, matchCore ru (cs.drop i) = none := by
      intro i hi
      have := h (i + 1) (by simp only [List.length_cons]; omega)
      simpa using this
    rw [ih hcs (some c)]

/-- A rule whose first atom is a literal starting with a character absent
from the string matches nowhere in it. -/
theorem subAuxS_id_of_absent {ru : Rule} {repl : List Char} {a : Char} {l : List Char}
    (hatom : ∃ rest, ru.atoms = Atom.lit (a :: l) :: rest) :
    ∀ s : List Char, a ∉ s → ∀ prev, subAuxS ru repl 0 prev s = s := by
  intro s hs prev
  refine subAuxS_id_of_noMatch s ?_ prev
  intro i hi
  rcases hatom with ⟨rest, hatom⟩
  rw [matchCore, hatom]
  have hnp : (a :: l).isPrefixOf (s.drop i) = false := by
    rcases hdrop : s.drop i with _ | ⟨c, cs⟩
    · rfl
    · have hc : c ∈ s := by
        have : c ∈ s.drop i := by rw [hdrop]; exact List.mem_cons_self c cs
        exact List.mem_of_mem_drop this
      have hac : (a == c) = false := by
        rw [beq_eq_false_iff_ne]
        rintro rfl
        exact hs hc
      simp [List.isPrefixOf, hac]
  rw [matchAtoms, hnp]
  simp

/-- `re.sub` with a fixed-literal pattern is literal replacement. -/
theorem reSubLit_eq_pyReplace {q r : List Char} (hq : q ≠ []) :
    ∀ s, reSubLit q r s = pyReplace q r s := by
  have key : ∀ n s prev, s.length ≤ n →
      subAuxS ⟨Pre.free, [Atom.lit q], Post.free⟩ r 0 prev s = pyReplace q r s := by
    intro n
    induction n with
    | zero =>
      intro s prev hs
      rw [List.length_eq_zero.mp (Nat.le_zero.mp hs)]
      rfl
    | succ n ih =>
      intro s prev hs
      match s with
      | [] => rfl
      | c :: cs =>
        have hmr : matchRule ⟨Pre.free, [Atom.lit q], Post.free⟩ prev (c :: cs) =
            if q.isPrefixOf (c :: cs) then some q.length else none := by
          rw [matchRule_free rfl, matchCore, matchAtoms]
          by_cases hpre : q.isPrefixOf (c :: cs)
          · simp [hpre, matchAtoms, postOk]
          · simp [hpre]
        rw [pyReplace_cons]
        by_cases hpre : q.isPrefixOf (c :: cs) = true
        · match hql : q.length with
          | 0 => exact absurd (List.length_eq_zero.mp hql) hq
          | m + 1 =>
            have hmr2 : matchRule ⟨Pre.free, [Atom.lit q], Post.free⟩ prev (c :: cs) =
                some (m + 1) := by rw [hmr, if_pos hpre, hql]
            rw [if_pos ⟨hq, hpre⟩]
            rw [subAuxS, hmr2]
            show r ++ subAuxS _ r m (some c) cs = _
            rw [subAuxS_skip_free rfl cs m (some c) prev]
            have hlen : (cs.drop m).length ≤ n := by
              simp only [List.length_drop]
              simp only [List.length_cons] at hs
              omega
            rw [ih (cs.drop m) prev hlen, List.drop_succ_cons]
        · have hmr2 : matchRule ⟨Pre.free, [Atom.lit q], Post.free⟩ prev (c :: cs) =
              none := by rw [hmr, if_neg hpre]
          rw [if_neg (fun hand => hpre hand.2)]
          rw [subAuxS, hmr2]
          show c :: subAuxS _ r 0 (some c) cs = c :: pyReplace q r cs
          rw [ih cs (some c) (by simp only [List.length_cons] at hs; omega)]
  intro s
  exact key s.length s none le_rfl

theorem takeWhile_all_append {f : Char → Bool} {l₁ l₂ : List Char}
    (h : ∀ x ∈ l₁, f x = true) :
    (l₁ ++ l₂).takeWhile f = l₁ ++ l₂.takeWhile f := by
  induction l₁ with
  | nil => simp
  | cons x xs ih =>
    rw [List.cons_append, List.takeWhile_cons, if_pos (h x (List.mem_cons_self x xs))]
    rw [ih fun y hy => h y (List.mem_cons_of_mem x hy), List.cons_append]

theorem dropWhile_all_append {f : Char → Bool} {l₁ l₂ : List Char}
    (h : ∀ x ∈ l₁, f x = true) :
    (l₁ ++ l₂).dropWhile f = l₂.dropWhile f := by
  induction l₁ with
  | nil => simp
  | cons x xs ih =>
    rw [List.cons_append, List.dropWhile_cons, if_pos (h x (List.mem_cons_self x xs))]
    exact ih fun y hy => h y (List.mem_cons_of_mem x hy)

theorem gitSeg_iff : ∀ l : List String,
    (hasSeg ".git" l && !((l.drop (pyIndex ".git" l + 1)).isEmpty)) = true ↔
      ".git" ∈ l.dropLast := by
  intro l
  induction l with
  | nil => simp [hasSeg]
  | cons x xs ih =>
    by_cases hx : x = ".git"
    · subst hx
      match xs with
      | [] => simp [hasSeg, pyIndex]
      | y :: ys => simp [hasSeg, pyIndex, List.dropLast_cons₂]
    · have hxb : (x == ".git") = false := by
        rw [beq_eq_false_iff_ne]
        exact hx
      match xs with
      | [] => simp [hasSeg, hxb, hx]
      | y :: ys =>
        rw [List.dropLast_cons₂, List.mem_cons]
        show (hasSeg ".git" (x :: y :: ys) &&
          !((List.drop (pyIndex ".git" (x :: y :: ys) + 1) (x :: y :: ys)).isEmpty)) = true ↔ _
        rw [hasSeg, hxb, Bool.false_or, pyIndex, if_neg ?hne]
        case hne =>
          intro hxe
          exact hx (by simpa using hxe)
        constructor
        · intro h
          right
          rw [← ih]
          rw [List.drop_succ_cons] at h
          exact h
        · rintro (h | h)
          · exact absurd h.symm hx
          · rw [← ih] at h
            rw [List.drop_succ_cons]
            exact h

/-! ### Claim C1 -/

/-- C1 (counterexample): the claim asserts that a path whose final
segment is `.git` is excluded whatever its kind; a regular *file* named
`.git` is not excluded — `should_exclude` is `false` on it. -/
theorem C1_counterexample :
    ".git" ∈ (PathInfo.mk [".git"] false).parts ∧
    should_exclude ⟨[".git"], false⟩ = false := by decide

/-- C1 (amended): every path lying strictly below a `.git` segment, and
every directory whose final segment is `.git`, is excluded — with no
special-keep exception; only a regular file named `.git` (as the final
segment) escapes the version-control rule. -/
theorem C1_theorem (p : PathInfo)
    (h : ".git" ∈ p.parts.dropLast ∨ (pathName p = ".git" ∧ p.isDir = true)) :
    should_exclude p = true := by
  rw [should_exclude]
  by_cases h1 : (pathName p == ".git" && p.isDir) = true
  · rw [if_pos h1]
  · rw [if_neg h1]
    rcases h with h | h
    · rw [if_pos ((gitSeg_iff p.parts).mpr h)]
    · exact absurd (by simp [h.1, h.2]) h1

/-- C1 (witness): the amended claim at concrete paths. -/
theorem C1_witness :
    should_exclude ⟨[".git", "config"], false⟩ = true ∧
    should_exclude ⟨["a", ".git"], true⟩ = true :=
  ⟨C1_theorem _ (Or.inl (by decide)), C1_theorem _ (Or.inr (by decide))⟩

/-! ### Claim C2 -/

/-- C2 (counterexample): the `.gitignore` pattern matches the file
`scratchpads/.gitignore` (exact final segment), yet `should_exclude`
returns `false` on it — a matching rule does not always exclude. -/
theorem C2_counterexample :
    ".gitignore" ∈ EXCLUDE_PATTERNS ∧
    patternMatches ".gitignore" ⟨["scratchpads", ".gitignore"], false⟩ = true ∧
    should_exclude ⟨["scratchpads", ".gitignore"], false⟩ = false := by decide

/-- C2 (amended): any single matching rule other than the `.git` pattern
(which the loop skips) suffices to exclude, except for the special-keep
file `scratchpads/.../.gitignore`. -/
theorem C2_theorem (p : PathInfo) (pat : String) (hmem : pat ∈ EXCLUDE_PATTERNS)
    (hne : pat ≠ ".git") (hmatch : patternMatches pat p = true)
    (hkeep : ¬(p.isDir = false ∧ "scratchpads" ∈ p.parts ∧ pathName p = ".gitignore")) :
    should_exclude p = true := by
  rw [should_exclude]
  by_cases h1 : (pathName p == ".git" && p.isDir) = true
  · rw [if_pos h1]
  · rw [if_neg h1]
    by_cases h2 : (hasSeg ".git" p.parts
        && !((p.parts.drop (pyIndex ".git" p.parts + 1)).isEmpty)) = true
    · rw [if_pos h2]
    · rw [if_neg h2]
      by_cases h3 : (hasSeg "scratchpads" p.parts && !p.isDir) = true
      · rw [if_pos h3]
        rw [Bool.and_eq_true, Bool.not_eq_true'] at h3
        by_cases h4 : (pathName p == ".gitignore") = true
        · exact absurd ⟨h3.2, hasSeg_iff.mp h3.1, beq_iff_eq.mp h4⟩ hkeep
        · rw [if_neg h4]
      · rw [if_neg h3]
        rw [List.any_eq_true]
        refine ⟨pat, hmem, ?_⟩
        have hpat : (pat == ".git") = false := beq_eq_false_iff_ne.mpr hne
        rw [if_neg (by simp [hpat])]
        rw [patternMatches] at hmatch
        by_cases hglob : pat.data.contains '*' = true
        · rw [if_pos hglob] at hmatch
          by_cases hsub : (containsSub pat.data (pathStr p).data
              || (pathName p == pat)) = true
          · rw [if_pos hsub]
          · rw [if_neg hsub, if_pos (by rw [Bool.and_eq_true]; exact ⟨hglob, hmatch⟩)]
        · rw [if_neg hglob] at hmatch
          rw [if_pos hmatch]

/-- C2 (witness): the amended claim at concrete paths and patterns. -/
theorem C2_witness :
    should_exclude ⟨["a", "__pycache__"], true⟩ = true ∧
    should_exclude ⟨["a", "b.pyc"], false⟩ = true :=
  ⟨C2_theorem _ "__pycache__" (by decide) (by decide) (by decide) (by decide),
   C2_theorem _ "*.pyc" (by decide) (by decide) (by decide) (by decide)⟩

/-! ### Claim C8 -/

/-- C8: bytes that fail UTF-8 decoding are not an error: the copy falls
back to a raw byte copy, the destination bytes equal the source bytes
exactly, and the Content Transformer is never applied. -/
theorem C8_theorem (bytes : List UInt8) (p : PathInfo)
    (h : decodeUtf8 bytes = none) :
    copy_and_process_file bytes p = bytes := by
  rw [copy_and_process_file, h]

/-- C8 (witness): a concrete non-decodable input. -/
theorem C8_witness :
    decodeUtf8 [0xFF, 0x41] = none ∧
    copy_and_process_file [0xFF, 0x41] ⟨["data.bin"], false⟩ = [0xFF, 0x41] :=
  ⟨by decide, C8_theorem _ _ (by decide)⟩

/-! ### Claim C9 -/

/-- C9: the Content Transformer is a pure function of the content and the
path's final segment: two invocations with equal contents and equal
filenames give equal outputs regardless of directory components. -/
theorem C9_theorem (content : List Char) (p₁ p₂ : PathInfo)
    (h : pathName p₁ = pathName p₂) :
    process_text_content content p₁ = process_text_content content p₂ := by
  rw [process_text_content, process_text_content, h]

/-- C9 (witness): same filename under different directories. -/
theorem C9_witness :
    process_text_content "import template_core".data ⟨["a", "b", "x.py"], false⟩ =
      process_text_content "import template_core".data ⟨["z", "x.py"], false⟩ :=
  C9_theorem _ _ _ rfl

/-! ### Claim C3 -/

/-- C3: the destination of a relative source path is the template root
followed by the same segments in the same order, each replaced by its
rename-table entry exactly when the whole segment is a key — no partial
replacement, every occurrence (nested included) renamed. (`pathlib`
normalises away `.` segments, so relative paths contain none, and the
traversal only produces nonempty relative paths.) -/
theorem C3_theorem (parts : List String) (hne : parts ≠ []) (h : "." ∉ parts) :
    get_template_path parts = TEMPLATE_ROOT ++ parts.map renameSeg := by
  have hhead : (parts.head? == some ".") = false := by
    rw [beq_eq_false_iff_ne]
    intro he
    match parts, he with
    | a :: t, he =>
      rw [List.head?_cons, Option.some.injEq] at he
      exact h (he ▸ List.mem_cons_self a t)
  have hpoint : ∀ part : String,
      (match DIRECTORY_RENAMES.lookup part with
       | some r => r
       | none => part) = renameSeg part := by
    intro part
    by_cases h1 : part = "template_core"
    · subst h1; rfl
    · by_cases h2 : part = "template_tools"
      · subst h2; rfl
      · have b1 : (part == "template_core") = false := beq_eq_false_iff_ne.mpr h1
        have b2 : (part == "template_tools") = false := beq_eq_false_iff_ne.mpr h2
        rw [renameSeg, if_neg h1, if_neg h2]
        simp [DIRECTORY_RENAMES, List.lookup, b1, b2]
  have hfold : ∀ (l : List String) (acc : List String),
      l.foldl (fun acc part =>
        acc ++ [match DIRECTORY_RENAMES.lookup part with
                | some r => r
                | none => part]) acc = acc ++ l.map renameSeg := by
    intro l
    induction l with
    | nil => intro acc; simp
    | cons x xs ih =>
      intro acc
      rw [List.foldl_cons, List.map_cons, ih, hpoint x]
      simp
  rw [get_template_path]
  simp only [hhead]
  rw [if_neg (by simp)]
  rw [hfold parts []]
  rw [List.nil_append]

/-- C3 (witness): nested occurrences of a renamed segment. -/
theorem C3_witness :
    "." ∉ ["a", "template_core", "x", "template_core"] ∧
    get_template_path ["a", "template_core", "x", "template_core"] =
      TEMPLATE_ROOT ++ ["a", "template_core", "x", "template_core"].map renameSeg :=
  ⟨by decide, C3_theorem _ (by decide) (by decide)⟩

/-! ### Claim C7 -/

/-- C7 (counterexample): the claim asserts every file named `.gitignore`
under a `scratchpads` segment is kept; a `.gitignore` lying below a
`.git` segment inside `scratchpads` is nevertheless excluded, because the
version-control rule runs first. -/
theorem C7_counterexample :
    "scratchpads" ∈ (PathInfo.mk ["scratchpads", ".git", ".gitignore"] false).parts ∧
    pathName ⟨["scratchpads", ".git", ".gitignore"], false⟩ = ".gitignore" ∧
    should_exclude ⟨["scratchpads", ".git", ".gitignore"], false⟩ = true := by decide

/-- C7 (amended): for a file with a `scratchpads` segment that is not
strictly below a `.git` segment, exclusion holds exactly when the file is
not named `.gitignore`; and `scratchpads/.gitignore` is retained, its
rewritten path being the template root plus the unchanged segments. -/
theorem C7_theorem :
    (∀ p : PathInfo, p.isDir = false → "scratchpads" ∈ p.parts →
      ".git" ∉ p.parts.dropLast →
      (should_exclude p = true ↔ pathName p ≠ ".gitignore")) ∧
    get_template_path ["scratchpads", ".gitignore"] =
      TEMPLATE_ROOT ++ ["scratchpads", ".gitignore"] := by
  constructor
  · intro p hf hs hg
    rw [should_exclude]
    have h1 : (pathName p == ".git" && p.isDir) = false := by
      rw [hf, Bool.and_false]
    rw [if_neg (by simp [h1])]
    have h2 : (hasSeg ".git" p.parts
        && !((p.parts.drop (pyIndex ".git" p.parts + 1)).isEmpty)) = false := by
      rw [Bool.eq_false_iff]
      intro habs
      exact hg ((gitSeg_iff p.parts).mp habs)
    rw [if_neg (by simp [h2])]
    rw [if_pos (by rw [Bool.and_eq_true]; exact ⟨hasSeg_iff.mpr hs, by rw [hf]; rfl⟩)]
    by_cases h4 : pathName p = ".gitignore"
    · simp [h4]
    · simp [h4, beq_eq_false_iff_ne.mpr h4]
  · decide

/-- C7 (witness): the amended claim at the example paths of the spec. -/
theorem C7_witness :
    should_exclude ⟨["scratchpads", "notes.txt"], false⟩ = true ∧
    should_exclude ⟨["scratchpads", ".gitignore"], false⟩ = false := by
  constructor
  · exact (C7_theorem.1 _ rfl (by decide) (by decide)).mpr (by decide)
  · have h := C7_theorem.1 ⟨["scratchpads", ".gitignore"], false⟩ rfl (by decide) (by decide)
    have hname : pathName ⟨["scratchpads", ".gitignore"], false⟩ = ".gitignore" := by decide
    rcases hb : should_exclude ⟨["scratchpads", ".gitignore"], false⟩ with _ | _
    · rfl
    · exact absurd hname (h.mp hb)

/-! ### Claim C10 -/

/-- C10: dispatch picks only the first matching branch, and exact-name
dispatch wins over extension dispatch: `compose.yaml` and
`.pre-commit-config.yaml` receive exactly their exact-name rule lists and
are never raw-wrapped; in particular a `compose.yaml` without its own
trigger is returned unchanged even when it contains `$\x7b\x7b`, while
the same content under a `.yml` name is wrapped. -/
theorem C10_theorem :
    (∀ c : List Char, processNamed c "compose.yaml".data = composeRules c) ∧
    (∀ c : List Char,
      processNamed c ".pre-commit-config.yaml".data = preCommitConfigRules c) ∧
    (∀ c : List Char, ¬ "template-dev:".data <:+: c →
      processNamed c "compose.yaml".data = c) ∧
    processNamed "jobs: $\x7b\x7b matrix.os \x7d\x7d".data "compose.yaml".data =
      "jobs: $\x7b\x7b matrix.os \x7d\x7d".data ∧
    processNamed "jobs: $\x7b\x7b matrix.os \x7d\x7d".data "ci.yml".data =
      rawWrap "jobs: $\x7b\x7b matrix.os \x7d\x7d".data := by
  refine ⟨fun c => rfl, fun c => rfl, ?_, by decide, by decide⟩
  intro c hocc
  show composeRules c = c
  rw [composeRules, reSubLit_eq_pyReplace (by decide)]
  exact replace_eq_self hocc

/-- C10 (witness): the no-trigger conjunct at a concrete content. -/
theorem C10_witness :
    processNamed "services:\n  app:\n    x: $\x7b\x7b y \x7d\x7d\n".data
      "compose.yaml".data = "services:\n  app:\n    x: $\x7b\x7b y \x7d\x7d\n".data :=
  C10_theorem.2.2.1 _ (by decide)

/-! ### Claim C4 -/

/-- C4 (counterexample): the claim asserts every `.yml`/`.yaml` filename
with `$\x7b\x7b` in its content is raw-wrapped; `compose.yaml` ends in
`.yaml` and contains `$\x7b\x7b`, yet is not wrapped (its exact-name
branch runs instead). -/
theorem C4_counterexample :
    ".yaml".data.isSuffixOf "compose.yaml".data = true ∧
    containsSub "$\x7b\x7b".data "img: $\x7b\x7b v \x7d\x7d".data = true ∧
    processNamed "img: $\x7b\x7b v \x7d\x7d".data "compose.yaml".data ≠
      rawWrap "img: $\x7b\x7b v \x7d\x7d".data := by decide

/-- C4 (amended): for every filename ending in `.yml` or `.yaml` other
than exactly `compose.yaml` and `.pre-commit-config.yaml`, content
containing `$\x7b\x7b` is returned wrapped verbatim in the raw-block
pair, and content without it is returned unchanged. -/
theorem C4_theorem (c name : List Char)
    (h1 : ".yml".data <:+ name ∨ ".yaml".data <:+ name)
    (h2 : name ≠ "compose.yaml".data)
    (h3 : name ≠ ".pre-commit-config.yaml".data) :
    processNamed c name =
      if containsSub "$\x7b\x7b".data c then rawWrap c else c := by
  have hexact : ∀ x : List Char, ¬(".yml".data <:+ x ∨ ".yaml".data <:+ x) →
      (name == x) = false := by
    intro x hx
    rw [beq_eq_false_iff_ne]
    rintro rfl
    exact hx h1
  have hsufFalse : ∀ t : List Char,
      ¬(".yml".data <:+ t ∨ t <:+ ".yml".data) →
      ¬(".yaml".data <:+ t ∨ t <:+ ".yaml".data) →
      t.isSuffixOf name = false := by
    intro t hty htya
    rw [Bool.eq_false_iff]
    intro habs
    have hsuf := isSuffixOf_true.mp habs
    rcases h1 with h | h
    · rcases List.suffix_or_suffix_of_suffix h hsuf with hh | hh
      · exact hty (Or.inl hh)
      · exact hty (Or.inr hh)
    · rcases List.suffix_or_suffix_of_suffix h hsuf with hh | hh
      · exact htya (Or.inl hh)
      · exact htya (Or.inr hh)
  have hpyproject := hexact "pyproject.toml".data (by decide)
  have henv := hexact ".env".data (by decide)
  have hdev := hexact "devcontainer.json".data (by decide)
  have hcompose : (name == "compose.yaml".data) = false := beq_eq_false_iff_ne.mpr h2
  have hsh : ".sh".data.isSuffixOf name = false := hsufFalse _ (by decide) (by decide)
  have hpc := hexact "pre-commit".data (by decide)
  have hreadme := hexact "README.md".data (by decide)
  have hpy : ".py".data.isSuffixOf name = false := hsufFalse _ (by decide) (by decide)
  have hpcc : (name == ".pre-commit-config.yaml".data) = false :=
    beq_eq_false_iff_ne.mpr h3
  have hyml : (".yml".data.isSuffixOf name || ".yaml".data.isSuffixOf name) = true := by
    rw [Bool.or_eq_true]
    rcases h1 with h | h
    · exact Or.inl (isSuffixOf_true.mpr h)
    · exact Or.inr (isSuffixOf_true.mpr h)
  rw [processNamed]
  rw [if_neg (by simp [hpyproject]), if_neg (by simp [henv]), if_neg (by simp [hdev]),
    if_neg (by simp [hcompose]), if_neg (by simp [hsh, hpc]),
    if_neg (by simp [hreadme]), if_neg (by simp [hpy]), if_neg (by simp [hpcc]),
    if_pos hyml]
  rfl

/-- C4 (witness): the amended claim at a workflow filename, both with and
without the delimiter. -/
theorem C4_witness :
    processNamed "on: push\nref: $\x7b\x7b github.ref \x7d\x7d\n".data "deploy.yml".data =
      rawWrap "on: push\nref: $\x7b\x7b github.ref \x7d\x7d\n".data ∧
    processNamed "on: push\n".data "release.yaml".data = "on: push\n".data := by
  constructor
  · rw [C4_theorem _ "deploy.yml".data (Or.inl (by decide)) (by decide) (by decide)]
    decide
  · rw [C4_theorem _ "release.yaml".data (Or.inr (by decide)) (by decide) (by decide)]
    decide

/-! ### Claim C5 -/

/-- C5 (counterexample): the shell-script branch rewrites only fixed
literals, yet is not idempotent — the `$\x7b#` escape re-escapes its own
output. -/
theorem C5_counterexample :
    processNamed (processNamed "echo $\x7b#arr[@]\x7d".data "build.sh".data)
        "build.sh".data ≠
      processNamed "echo $\x7b#arr[@]\x7d".data "build.sh".data := by decide

/-- C5 (amended): the Content Transformer is idempotent on the
fixed-literal rule lists of `compose.yaml` and `.pre-commit-config.yaml`;
the shell-script `$\x7b#` escape rule (and the workflow raw-block wrap)
genuinely cascade and are not idempotent. -/
theorem C5_theorem :
    (∀ c : List Char,
      processNamed (processNamed c "compose.yaml".data) "compose.yaml".data =
        processNamed c "compose.yaml".data) ∧
    (∀ c : List Char,
      processNamed (processNamed c ".pre-commit-config.yaml".data)
          ".pre-commit-config.yaml".data =
        processNamed c ".pre-commit-config.yaml".data) := by
  constructor
  · intro c
    show composeRules (composeRules c) = composeRules c
    have hb : ∀ s, reSubLit "template-dev:".data
        "\x7b\x7bcookiecutter.docker_service_name\x7d\x7d:".data s =
        pyReplace "template-dev:".data
          "\x7b\x7bcookiecutter.docker_service_name\x7d\x7d:".data s :=
      reSubLit_eq_pyReplace (by decide)
    rw [composeRules, composeRules, hb, hb]
    exact replace_idem (by decide) (by decide) (by decide) c
  · intro c
    show preCommitConfigRules (preCommitConfigRules c) = preCommitConfigRules c
    have hb1 : ∀ s, reSubLit "--config-file=template_core/mypy.ini".data
        "--config-file=\x7b\x7bcookiecutter.project_slug\x7d\x7d_core/mypy.ini".data s =
        pyReplace "--config-file=template_core/mypy.ini".data
          "--config-file=\x7b\x7bcookiecutter.project_slug\x7d\x7d_core/mypy.ini".data s :=
      reSubLit_eq_pyReplace (by decide)
    have hb2 : ∀ s, reSubLit "--config-file=template_tools/mypy.ini".data
        "--config-file=\x7b\x7bcookiecutter.project_slug\x7d\x7d_tools/mypy.ini".data s =
        pyReplace "--config-file=template_tools/mypy.ini".data
          "--config-file=\x7b\x7bcookiecutter.project_slug\x7d\x7d_tools/mypy.ini".data s :=
      reSubLit_eq_pyReplace (by decide)
    simp only [preCommitConfigRules, hb1, hb2]
    have hy : ¬ "--config-file=template_core/mypy.ini".data <:+:
        pyReplace "--config-file=template_core/mypy.ini".data
          "--config-file=\x7b\x7bcookiecutter.project_slug\x7d\x7d_core/mypy.ini".data c :=
      replace_no_occur (by decide) (by decide) (by decide) c (Or.inl rfl)
    have hz1 : ¬ "--config-file=template_core/mypy.ini".data <:+:
        pyReplace "--config-file=template_tools/mypy.ini".data
          "--config-file=\x7b\x7bcookiecutter.project_slug\x7d\x7d_tools/mypy.ini".data
          (pyReplace "--config-file=template_core/mypy.ini".data
            "--config-file=\x7b\x7bcookiecutter.project_slug\x7d\x7d_core/mypy.ini".data c) :=
      replace_no_occur (by decide) (by decide) (by decide) _ (Or.inr hy)
    have hz2 : ¬ "--config-file=template_tools/mypy.ini".data <:+:
        pyReplace "--config-file=template_tools/mypy.ini".data
          "--config-file=\x7b\x7bcookiecutter.project_slug\x7d\x7d_tools/mypy.ini".data
          (pyReplace "--config-file=template_core/mypy.ini".data
            "--config-file=\x7b\x7bcookiecutter.project_slug\x7d\x7d_core/mypy.ini".data c) :=
      replace_no_occur (by decide) (by decide) (by decide) _ (Or.inl rfl)
    rw [replace_eq_self hz1, replace_eq_self hz2]

/-! ### Claim C6 -/

theorem not_mem_of_all {c : Char} {f : Char → Bool} {d : List Char} (hf : f c = false)
    (hall : ∀ x ∈ d, f x = true) : c ∉ d := by
  intro h
  rw [hall c h] at hf
  exact Bool.noConfusion hf

theorem no_img_in_user {w : List Char} (hword : ∀ ch ∈ w, isWordChar ch = true) :
    ¬ "IMAGE_NAME=template".data <:+: ("USER_NAME=".data ++ w) := by
  intro h
  rcases infix_append_split h with ⟨i, hi, hpre⟩ | h2
  · obtain ⟨u, hu⟩ := hpre
    have ht0 : ("USER_NAME=".data.drop i ++ w)[0]? = some 'I' := by
      rw [← hu]
      rw [List.getElem?_append]
      rw [if_pos (by decide)]
      decide
    rw [List.getElem?_append] at ht0
    rw [if_pos (by simp only [List.length_drop]; simp only [List.length_cons] at hi ⊢; omega)] at ht0
    rw [List.getElem?_drop] at ht0
    have hnotI : ∀ j, j < 10 → ¬("USER_NAME=".data[j]? = some 'I') := by decide
    exact hnotI (i + 0) (by simp at hi ⊢; omega) ht0
  · have hmem : '=' ∈ w := h2.sublist.subset (by decide)
    have := hword '=' hmem
    rw [show isWordChar '=' = false by decide] at this
    exact Bool.false_ne_true this

theorem userRule_full {w : List Char} (hw : w ≠ [])
    (hword : ∀ ch ∈ w, isWordChar ch = true) :
    matchRule userNameRule none ("USER_NAME=".data ++ w) =
      some ("USER_NAME=".data ++ w).length := by
  have htw : w.takeWhile isWordChar = w := List.takeWhile_eq_self_iff.mpr hword
  have hdw : w.dropWhile isWordChar = [] := List.dropWhile_eq_nil_iff.mpr hword
  have hwe : w.isEmpty = false := List.isEmpty_eq_false.mpr hw
  have hatoms : matchAtoms userNameRule.atoms ("USER_NAME=".data ++ w) =
      some ((0 + w.length) + "USER_NAME=".data.length) := by
    show matchAtoms [Atom.lit "USER_NAME=".data, Atom.plus isWordChar] _ = _
    rw [matchAtoms]
    rw [if_pos (isPrefixOf_true.mpr (List.prefix_append _ _))]
    rw [List.drop_left]
    rw [matchAtoms]
    rw [htw, hwe]
    rw [if_neg (by simp)]
    rw [hdw]
    rw [matchAtoms]
    rfl
  rw [matchRule]
  rw [if_pos (by rfl)]
  rw [matchCore, hatoms]
  show (if postOk userNameRule.post _ then _ else _) = _
  rw [if_pos (by rfl)]
  rw [Option.some.injEq, List.length_append]
  omega

theorem versionRule_full {d₁ d₂ d₃ : List Char}
    (hn1 : d₁ ≠ []) (hn2 : d₂ ≠ []) (hn3 : d₃ ≠ [])
    (hd1 : ∀ ch ∈ d₁, ch.isDigit = true) (hd2 : ∀ ch ∈ d₂, ch.isDigit = true)
    (hd3 : ∀ ch ∈ d₃, ch.isDigit = true) :
    matchRule imageVersionRule none
      ("IMAGE_VERSION=v".data ++ (d₁ ++ '.' :: (d₂ ++ '.' :: d₃))) =
      some ("IMAGE_VERSION=v".data ++ (d₁ ++ '.' :: (d₂ ++ '.' :: d₃))).length := by
  have he1 : d₁.isEmpty = false := List.isEmpty_eq_false.mpr hn1
  have he2 : d₂.isEmpty = false := List.isEmpty_eq_false.mpr hn2
  have he3 : d₃.isEmpty = false := List.isEmpty_eq_false.mpr hn3
  have hdot : ∀ t : List Char, ".".data.isPrefixOf ('.' :: t) = true := by
    intro t
    rw [isPrefixOf_true]
    exact ⟨t, rfl⟩
  have htk1 : (d₁ ++ '.' :: (d₂ ++ '.' :: d₃)).takeWhile Char.isDigit = d₁ := by
    rw [takeWhile_all_append hd1, List.takeWhile_cons, if_neg (by decide), List.append_nil]
  have hdp1 : (d₁ ++ '.' :: (d₂ ++ '.' :: d₃)).dropWhile Char.isDigit =
      '.' :: (d₂ ++ '.' :: d₃) := by
    rw [dropWhile_all_append hd1, List.dropWhile_cons, if_neg (by decide)]
  have htk2 : (d₂ ++ '.' :: d₃).takeWhile Char.isDigit = d₂ := by
    rw [takeWhile_all_append hd2, List.takeWhile_cons, if_neg (by decide), List.append_nil]
  have hdp2 : (d₂ ++ '.' :: d₃).dropWhile Char.isDigit = '.' :: d₃ := by
    rw [dropWhile_all_append hd2, List.dropWhile_cons, if_neg (by decide)]
  have hA1 : matchAtoms [Atom.plus Char.isDigit] d₃ = some (0 + d₃.length) := by
    rw [matchAtoms, List.takeWhile_eq_self_iff.mpr hd3, he3, if_neg (by simp),
      List.dropWhile_eq_nil_iff.mpr hd3, matchAtoms]
    rfl
  have hA2 : matchAtoms [Atom.lit ".".data, Atom.plus Char.isDigit] ('.' :: d₃) =
      some ((0 + d₃.length) + 1) := by
    rw [matchAtoms, if_pos (hdot d₃)]
    show (matchAtoms [Atom.plus Char.isDigit] d₃).map (fun x => x + 1) = _
    rw [hA1]
    rfl
  have hA3 : matchAtoms [Atom.plus Char.isDigit, Atom.lit ".".data,
      Atom.plus Char.isDigit] (d₂ ++ '.' :: d₃) =
      some (((0 + d₃.length) + 1) + d₂.length) := by
    rw [matchAtoms, htk2, he2, if_neg (by simp), hdp2, hA2]
    rfl
  have hA4 : matchAtoms [Atom.lit ".".data, Atom.plus Char.isDigit,
      Atom.lit ".".data, Atom.plus Char.isDigit] ('.' :: (d₂ ++ '.' :: d₃)) =
      some (((((0 + d₃.length) + 1) + d₂.length)) + 1) := by
    rw [matchAtoms, if_pos (hdot _)]
    show (matchAtoms [Atom.plus Char.isDigit, Atom.lit ".".data,
      Atom.plus Char.isDigit] (d₂ ++ '.' :: d₃)).map (fun x => x + 1) = _
    rw [hA3]
    rfl
  have hatoms : matchAtoms imageVersionRule.atoms
      ("IMAGE_VERSION=v".data ++ (d₁ ++ '.' :: (d₂ ++ '.' :: d₃))) =
      some (((((((0 + d₃.length) + 1) + d₂.length) + 1) + d₁.length)
        + "IMAGE_VERSION=v".data.length)) := by
    show matchAtoms [Atom.lit "IMAGE_VERSION=v".data, Atom.plus Char.isDigit,
      Atom.lit ".".data, Atom.plus Char.isDigit, Atom.lit ".".data,
      Atom.plus Char.isDigit] _ = _
    rw [matchAtoms, if_pos (isPrefixOf_true.mpr (List.prefix_append _ _)),
      List.drop_left]
    rw [matchAtoms, htk1, he1, if_neg (by simp), hdp1, hA4]
    rfl
  rw [matchRule, if_pos (by rfl), matchCore, hatoms]
  show (if postOk imageVersionRule.post _ then _ else _) = _
  rw [if_pos (by rfl)]
  rw [Option.some.injEq]
  simp only [List.length_append, List.length_cons]
  omega

/-- C6: for the file `.env`, a line `IMAGE_NAME=template` is rewritten to
the image-name placeholder, a line `USER_NAME=<word>` is rewritten to the
user-name placeholder for every word-character username, a line
`IMAGE_VERSION=v<digits>.<digits>.<digits>` is rewritten to the
image-version placeholder, and content matching none of the three
patterns passes through unchanged. -/
theorem C6_theorem :
    (processNamed "IMAGE_NAME=template".data ".env".data =
      "IMAGE_NAME=\x7b\x7bcookiecutter.docker_image_name\x7d\x7d".data) ∧
    (∀ w : List Char, w ≠ [] → (∀ ch ∈ w, isWordChar ch = true) →
      processNamed ("USER_NAME=".data ++ w) ".env".data =
        "USER_NAME=\x7b\x7bcookiecutter.user_name\x7d\x7d".data) ∧
    (∀ d₁ d₂ d₃ : List Char, d₁ ≠ [] → d₂ ≠ [] → d₃ ≠ [] →
      (∀ ch ∈ d₁, ch.isDigit = true) → (∀ ch ∈ d₂, ch.isDigit = true) →
      (∀ ch ∈ d₃, ch.isDigit = true) →
      processNamed ("IMAGE_VERSION=v".data ++ (d₁ ++ '.' :: (d₂ ++ '.' :: d₃)))
          ".env".data =
        "IMAGE_VERSION=\x7b\x7bcookiecutter.docker_image_version\x7d\x7d".data) ∧
    (∀ line : List Char, '\n' ∉ line →
      ¬ "IMAGE_NAME=template".data <:+: line →
      (∀ i < line.length, matchCore userNameRule (line.drop i) = none) →
      (∀ i < line.length, matchCore imageVersionRule (line.drop i) = none) →
      processNamed line ".env".data = line) := by
  refine ⟨by decide, ?_, ?_, ?_⟩
  · intro w hw hword
    show envRules ("USER_NAME=".data ++ w) = _
    simp only [envRules]
    rw [reSubLit_eq_pyReplace (by decide)]
    rw [replace_eq_self (no_img_in_user hword)]
    rw [reSub_full (userRule_full hw hword)
      (by intro h; exact absurd (List.append_eq_nil.mp h).1 (by decide))]
    decide
  · intro d₁ d₂ d₃ hn1 hn2 hn3 hd1 hd2 hd3
    show envRules ("IMAGE_VERSION=v".data ++ (d₁ ++ '.' :: (d₂ ++ '.' :: d₃))) = _
    simp only [envRules]
    have hpmem : 'p' ∉ "IMAGE_VERSION=v".data ++ (d₁ ++ '.' :: (d₂ ++ '.' :: d₃)) := by
      intro hmem
      rcases List.mem_append.mp hmem with h | h
      · revert h; decide
      · rcases List.mem_append.mp h with h | h
        · exact not_mem_of_all (by decide) hd1 h
        · rcases List.mem_cons.mp h with h | h
          · exact absurd h (by decide)
          · rcases List.mem_append.mp h with h | h
            · exact not_mem_of_all (by decide) hd2 h
            · rcases List.mem_cons.mp h with h | h
              · exact absurd h (by decide)
              · exact not_mem_of_all (by decide) hd3 h
    have hUmem : 'U' ∉ "IMAGE_VERSION=v".data ++ (d₁ ++ '.' :: (d₂ ++ '.' :: d₃)) := by
      intro hmem
      rcases List.mem_append.mp hmem with h | h
      · revert h; decide
      · rcases List.mem_append.mp h with h | h
        · exact not_mem_of_all (by decide) hd1 h
        · rcases List.mem_cons.mp h with h | h
          · exact absurd h (by decide)
          · rcases List.mem_append.mp h with h | h
            · exact not_mem_of_all (by decide) hd2 h
            · rcases List.mem_cons.mp h with h | h
              · exact absurd h (by decide)
              · exact not_mem_of_all (by decide) hd3 h
    rw [reSubLit_eq_pyReplace (by decide)]
    rw [replace_eq_self (not_infix_of_absent (by decide) hpmem)]
    rw [show reSub userNameRule
        "USER_NAME=\x7b\x7bcookiecutter.user_name\x7d\x7d".data
        ("IMAGE_VERSION=v".data ++ (d₁ ++ '.' :: (d₂ ++ '.' :: d₃))) =
        "IMAGE_VERSION=v".data ++ (d₁ ++ '.' :: (d₂ ++ '.' :: d₃)) from
      @subAuxS_id_of_absent userNameRule
        "USER_NAME=\x7b\x7bcookiecutter.user_name\x7d\x7d".data 'U' "SER_NAME=".data
        ⟨[Atom.plus isWordChar], rfl⟩ _ hUmem none]
    exact reSub_full (versionRule_full hn1 hn2 hn3 hd1 hd2 hd3)
      (by intro h; exact absurd (List.append_eq_nil.mp h).1 (by decide))
  · intro line hnl hImg hU hV
    show envRules line = line
    simp only [envRules]
    rw [reSubLit_eq_pyReplace (by decide), replace_eq_self hImg]
    rw [show reSub userNameRule
        "USER_NAME=\x7b\x7bcookiecutter.user_name\x7d\x7d".data line = line from
      @subAuxS_id_of_noMatch userNameRule
        "USER_NAME=\x7b\x7bcookiecutter.user_name\x7d\x7d".data line hU none]
    exact subAuxS_id_of_noMatch line hV none

/-- C6 (witness): the `.env` rewrites at concrete lines, including a
non-matching line passed through unchanged. -/
theorem C6_witness :
    processNamed "USER_NAME=alice".data ".env".data =
      "USER_NAME=\x7b\x7bcookiecutter.user_name\x7d\x7d".data ∧
    processNamed "IMAGE_VERSION=v1.22.3".data ".env".data =
      "IMAGE_VERSION=\x7b\x7bcookiecutter.docker_image_version\x7d\x7d".data ∧
    processNamed "FOO=bar".data ".env".data = "FOO=bar".data := by
  refine ⟨?_, ?_, ?_⟩
  · exact C6_theorem.2.1 "alice".data (by decide) (by decide)
  · exact C6_theorem.2.2.1 "1".data "22".data "3".data (by decide) (by decide)
      (by decide) (by decide) (by decide) (by decide)
  · exact C6_theorem.2.2.2 "FOO=bar".data (by decide) (by decide) (by decide) (by decide)
